import Mathlib

/-!
# Elias gamma coding — verification of `src/gamma.py`

Shallow embedding of the repository's gamma codec.  Python `str` bit
streams are modelled as `List Char` (the decoder inspects individual
characters, and its behaviour on non-bit characters is part of what we
verify).  Python `ValueError` exceptions are modelled with `Except
GammaError`; the three distinct error messages of the source map to the
three constructors below (plus one for `int(s, 2)` rejecting an invalid
literal).  The decoder's call `int("1" + offset, 2)` is modelled with
CPython's full literal grammar: Unicode decimal digits (transliterated to
ASCII), single underscores between digits (PEP 515), and stripped
trailing whitespace.
-/

/-- The error kinds raised by `gamma.py`:
* `invalidInput`    — `ValueError("Gamma encoding is only defined for positive integers")`;
* `unaryCutoff`     — `ValueError("Malformed gamma stream (prefix cutoff)")`;
* `offsetCutoff`    — `ValueError("Malformed gamma stream (offset cutoff)")`;
* `badDigit`        — the `ValueError` raised by Python's `int(binary, 2)`
  when `binary` is not a valid base-2 literal. -/
inductive GammaError where
  | invalidInput
  | unaryCutoff
  | offsetCutoff
  | badDigit
deriving DecidableEq, Repr

/-- Model of `bin(n)[2:]` of the source (for `n ≥ 1`): the most-significant-bit-first
binary representation of `n` as a list of `'0'`/`'1'` characters.
`natToBin 0 = []` (the source never calls it at 0). -/
def natToBin (n : Nat) : List Char :=
  if h : n = 0 then []
  else natToBin (n / 2) ++ [if n % 2 = 1 then '1' else '0']
termination_by n
decreasing_by
  exact Nat.div_lt_self (Nat.pos_of_ne_zero h) (by omega)

/-- Function `gamma_encode_number` from `src/gamma.py` (lines 68–86).  Raises
`invalidInput` for `n ≤ 0`; otherwise returns
`"0" * (len(binary) - 1) + "1" + binary[1:]` where `binary = bin(n)[2:]`. -/
def gamma_encode_number (n : Int) : Except GammaError (List Char) :=
  if n ≤ 0 then .error .invalidInput
  else
    .ok (List.replicate ((natToBin n.toNat).length - 1) '0'
          ++ '1' :: (natToBin n.toNat).drop 1)

/-- Function `gamma_encode_list` from `src/gamma.py` (lines 89–92):
`"".join(gamma_encode_number(n) for n in nums)`.  The generator raises on
the first invalid element, so the whole call produces no output then. -/
def gamma_encode_list : List Int → Except GammaError (List Char)
  | [] => .ok []
  | n :: rest =>
    (gamma_encode_number n).bind fun code =>
      (gamma_encode_list rest).map fun codes => code ++ codes

/-- The inner `while` of the decoder: the number of leading `'0'`
characters of the stream (any other character terminates the count). -/
def countZeros : List Char → Nat
  | [] => 0
  | c :: rest => if c = '0' then countZeros rest + 1 else 0

/-- Zero codepoints of the Unicode decimal-digit blocks (category `Nd`,
the database of current CPython, checked against `unicodedata`): each
entry `z` begins a run `z .. z+9` holding the digits 0-9 of one script.
Python's `int` accepts every such digit in a numeric literal,
transliterating it to ASCII before parsing. -/
def pyDigitZeros : List Nat :=
  [0x0030, 0x0660, 0x06F0, 0x07C0, 0x0966, 0x09E6, 0x0A66, 0x0AE6, 0x0B66,
   0x0BE6, 0x0C66, 0x0CE6, 0x0D66, 0x0DE6, 0x0E50, 0x0ED0, 0x0F20, 0x1040,
   0x1090, 0x17E0, 0x1810, 0x1946, 0x19D0, 0x1A80, 0x1A90, 0x1B50, 0x1BB0,
   0x1C40, 0x1C50, 0xA620, 0xA8D0, 0xA900, 0xA9D0, 0xA9F0, 0xAA50, 0xABF0,
   0xFF10, 0x104A0, 0x10D30, 0x11066, 0x110F0, 0x11136, 0x111D0, 0x112F0,
   0x11450, 0x114D0, 0x11650, 0x116C0, 0x11730, 0x118E0, 0x11950, 0x11C50,
   0x11D50, 0x11DA0, 0x16A60, 0x16AC0, 0x16B50, 0x1D7CE, 0x1D7D8, 0x1D7E2,
   0x1D7EC, 0x1D7F6, 0x1E140, 0x1E2F0, 0x1E950, 0x1FBF0]

/-- Decimal value of a character as Python's `int` sees it: `some v` when
the character is a Unicode decimal digit of value `v`, `none` otherwise. -/
def pyDigitVal (c : Char) : Option Nat :=
  (pyDigitZeros.find? fun z => decide (z ≤ c.toNat ∧ c.toNat ≤ z + 9)).map
    fun z => c.toNat - z

/-- Whitespace that Python's `int` strips around a numeric literal: the
Unicode whitespace characters are transliterated to a space and skipped,
and of the ASCII controls the literal parser itself skips only
`\t\n\v\f\r` and the space (the `str.isspace` controls `\x1c`-`\x1f`
make the literal invalid instead, so they are not in this set). -/
def isPySpace (c : Char) : Bool :=
  decide ((0x09 ≤ c.toNat ∧ c.toNat ≤ 0x0D) ∨ c.toNat = 0x20 ∨ c.toNat = 0x85
    ∨ c.toNat = 0xA0 ∨ c.toNat = 0x1680
    ∨ (0x2000 ≤ c.toNat ∧ c.toNat ≤ 0x200A) ∨ c.toNat = 0x2028 ∨ c.toNat = 0x2029
    ∨ c.toNat = 0x202F ∨ c.toNat = 0x205F ∨ c.toNat = 0x3000)

/-- Model of Python's `int(binary, 2)` past its first digit:
`parseBinAux acc s` parses the remaining characters `s` of a base-2
literal whose digits so far have value `acc` (at least one digit has
always been read, since the source's `binary` starts with `"1"`).
Following CPython: a decimal digit of value `< 2` extends the number; a
single underscore directly followed by such a digit is allowed between
digits (PEP 515); once whitespace starts, only trailing whitespace may
follow; a digit of value `≥ 2` (e.g. `int("12", 2)`) or any other
character makes the literal invalid — the `ValueError` that `int`
raises, `badDigit` here.  The source's `int("1" + offset, 2)` is
`parseBinAux 1 offset`. -/
def parseBinAux (acc : Nat) : List Char → Option Nat
  | [] => some acc
  | c :: rest =>
    (pyDigitVal c).elim
      (if c = '_' then
        match rest with
        | [] => none
        | c2 :: rest2 =>
          (pyDigitVal c2).elim none fun d =>
            if d < 2 then parseBinAux (acc * 2 + d) rest2 else none
      else if isPySpace c then
        (if rest.all isPySpace then some acc else none)
      else none)
      fun d => if d < 2 then parseBinAux (acc * 2 + d) rest else none

/-- Function `gamma_decode` from `src/gamma.py` (lines 95–124), one loop iteration
per recursive call.  With `z = countZeros stream` (the leading-zero count
of the current code): the stream being all zeros is the prefix cutoff;
otherwise one character (the prefix terminator — any character other than
`'0'`) is skipped, and fewer than `z` remaining characters is the offset
cutoff; otherwise the next `z` characters are the offset, the number
`int("1" + offset, 2)` is emitted, and decoding continues after them. -/
def gamma_decode (stream : List Char) : Except GammaError (List Int) :=
  if _h0 : stream = [] then .ok []
  else if h1 : stream.length ≤ countZeros stream then .error .unaryCutoff
  else if _h2 : (stream.drop (countZeros stream + 1)).length < countZeros stream then
    .error .offsetCutoff
  else
    (parseBinAux 1 ((stream.drop (countZeros stream + 1)).take (countZeros stream))).elim
      (.error .badDigit)
      fun x =>
        (gamma_decode ((stream.drop (countZeros stream + 1)).drop (countZeros stream))).map
          fun xs => (x : Int) :: xs
termination_by stream.length
decreasing_by
  simp only [List.length_drop]
  omega

/-- The `k` low-order bits of `n`, most significant first, as characters —
the spec's wording for the offset ("the low-order N−1 bits of x's binary
form"), written directly from that wording for comparison with the
source's `binary[1:]`. -/
def lowBits : Nat → Nat → List Char
  | 0, _ => []
  | k + 1, n => lowBits k (n / 2) ++ [if n % 2 = 1 then '1' else '0']

/-- The gamma code of `x` as the spec describes it: with
`N = floor(log2 x) + 1`, first `N − 1` zero bits, then one `'1'` bit, then
the low-order `N − 1` bits of `x`'s binary representation. -/
def gammaCodeSpec (x : Nat) : List Char :=
  List.replicate (Nat.log2 x) '0' ++ '1' :: lowBits (Nat.log2 x) x

/-- Binary-digit characters only. -/
def isBit (c : Char) : Prop := c = '0' ∨ c = '1'

instance (c : Char) : Decidable (isBit c) := by
  unfold isBit
  infer_instance

/-- The bit string the source encoder produces for a positive `n`
(`"0" * (len(binary) - 1) + "1" + binary[1:]`), named for reuse. -/
def gammaCode (n : Nat) : List Char :=
  List.replicate ((natToBin n).length - 1) '0' ++ '1' :: (natToBin n).drop 1

theorem lowBits_length (k : Nat) : ∀ n, (lowBits k n).length = k := by
  induction k with
  | zero => intro n; rfl
  | succ k ih => intro n; simp [lowBits, ih]

/-- Structure of the binary representation: for `n ≥ 1` it is a leading
`'1'` followed by the `Nat.log2 n` low-order bits of `n`. -/
theorem natToBin_eq (n : Nat) (h : 1 ≤ n) :
    natToBin n = '1' :: lowBits (Nat.log2 n) n := by
  induction n using Nat.strong_induction_on with
  | _ n ih =>
    rcases Nat.lt_or_ge n 2 with h2 | h2
    · interval_cases n
      simp [natToBin, Nat.log2, lowBits]
    · have hd2 : 1 ≤ n / 2 := by omega
      have hlt : n / 2 < n := Nat.div_lt_self (by omega) (by omega)
      have hlog : Nat.log2 n = Nat.log2 (n / 2) + 1 := by
        rw [Nat.log2]; simp [h2]
      rw [natToBin.eq_def]
      simp only [show ¬ n = 0 by omega, dif_neg, not_false_iff]
      rw [ih (n / 2) hlt hd2, hlog]
      simp [lowBits]

theorem natToBin_length (n : Nat) (h : 1 ≤ n) :
    (natToBin n).length = Nat.log2 n + 1 := by
  rw [natToBin_eq n h]
  simp [lowBits_length]

theorem pyDigitVal_zero : pyDigitVal '0' = some 0 := by decide

theorem pyDigitVal_one : pyDigitVal '1' = some 1 := by decide

theorem pyDigitVal_underscore : pyDigitVal '_' = none := by decide

/-- On the binary-digit characters `'0'`/`'1'` the literal parser's digit
classification gives exactly the bit value. -/
theorem pyDigitVal_isBit (c : Char) (hc : isBit c) :
    pyDigitVal c = some (if c = '1' then 1 else 0) := by
  rcases hc with h0 | h1
  · subst h0; decide
  · subst h1; decide

/-- Every character of a binary representation is a binary digit. -/
theorem natToBin_bits (n : Nat) : ∀ c ∈ natToBin n, isBit c := by
  induction n using Nat.strong_induction_on with
  | _ n ih =>
    intro c hc
    rcases Nat.eq_zero_or_pos n with rfl | hpos
    · simp [natToBin] at hc
    · rw [natToBin.eq_def] at hc
      simp only [show ¬ n = 0 by omega, dif_neg, not_false_iff, List.mem_append] at hc
      rcases hc with hc | hc
      · exact ih (n / 2) (Nat.div_lt_self hpos (by omega)) c hc
      · simp at hc
        rcases Nat.eq_zero_or_pos (n % 2) with hm | hm <;>
          [skip; have hm : n % 2 = 1 := by omega] <;> simp [hm] at hc <;> simp [hc, isBit]

/-- On a block of binary-digit characters the parser just accumulates and
continues into the remainder of the string. -/
theorem parseBinAux_append (s t : List Char) (hs : ∀ c ∈ s, isBit c) : ∀ acc,
    parseBinAux acc (s ++ t)
      = (parseBinAux acc s).elim none fun a => parseBinAux a t := by
  induction s with
  | nil => intro acc; simp [parseBinAux]
  | cons c rest ih =>
    intro acc
    have hrest : ∀ c ∈ rest, isBit c := fun c h => hs c (by simp [h])
    rw [parseBinAux.eq_def]
    conv_rhs => rw [parseBinAux.eq_def]
    rcases hs c (by simp) with h0 | h1
    · subst h0
      simp [pyDigitVal_zero, Option.elim_some, ih hrest]
    · subst h1
      simp [pyDigitVal_one, Option.elim_some, ih hrest]

/-- Reading the binary representation back: the parser applied to
`natToBin n` recovers `n` (shifted past the accumulator). -/
theorem parseBinAux_natToBin (n : Nat) : ∀ acc,
    parseBinAux acc (natToBin n) = some (acc * 2 ^ (natToBin n).length + n) := by
  induction n using Nat.strong_induction_on with
  | _ n ih =>
    intro acc
    rcases Nat.eq_zero_or_pos n with rfl | hpos
    · simp [natToBin, parseBinAux]
    · have hlt : n / 2 < n := Nat.div_lt_self hpos (by omega)
      rw [natToBin.eq_def]
      simp only [show ¬ n = 0 by omega, dif_neg, not_false_iff]
      rw [parseBinAux_append _ _ (natToBin_bits (n / 2)), ih (n / 2) hlt acc]
      have hmod : n % 2 = 0 ∨ n % 2 = 1 := by omega
      rcases hmod with hm | hm <;>
        simp [hm, parseBinAux, pyDigitVal_zero, pyDigitVal_one, Option.elim_some,
          List.length_append, pow_succ] <;> ring_nf <;> omega

/-- Induction workhorse (on a length bound, since the underscore case of
the grammar consumes two characters at once): every branch of the parser
either fails or keeps the accumulator's digits, so a successful result is
at least the accumulator. -/
theorem parseBinAux_lower_aux : ∀ (N : Nat) (s : List Char), s.length ≤ N → ∀ acc m,
    parseBinAux acc s = some m → acc ≤ m := by
  intro N
  induction N with
  | zero =>
    intro s hlen acc m h
    have hnil : s = [] := by
      cases s with
      | nil => rfl
      | cons a t => simp at hlen
    subst hnil
    simp [parseBinAux] at h
    omega
  | succ N ih =>
    intro s hlen acc m h
    cases s with
    | nil =>
      simp [parseBinAux] at h
      omega
    | cons c rest =>
      rw [parseBinAux.eq_def] at h
      simp only [] at h
      simp only [List.length_cons] at hlen
      cases hd : pyDigitVal c with
      | some d =>
        rw [hd] at h
        simp only [Option.elim_some] at h
        by_cases hlt : d < 2
        · rw [if_pos hlt] at h
          have hstep := ih rest (by omega) (acc * 2 + d) m h
          omega
        · rw [if_neg hlt] at h
          simp at h
      | none =>
        rw [hd] at h
        simp only [Option.elim_none] at h
        by_cases hu : c = '_'
        · rw [if_pos hu] at h
          cases rest with
          | nil => simp at h
          | cons c2 rest2 =>
            simp only [] at h
            simp only [List.length_cons] at hlen
            cases hd2 : pyDigitVal c2 with
            | some d =>
              rw [hd2] at h
              simp only [Option.elim_some] at h
              by_cases hlt : d < 2
              · rw [if_pos hlt] at h
                have hstep := ih rest2 (by omega) (acc * 2 + d) m h
                omega
              · rw [if_neg hlt] at h
                simp at h
            | none =>
              rw [hd2] at h
              simp at h
        · rw [if_neg hu] at h
          by_cases hsp : isPySpace c = true
          · rw [if_pos hsp] at h
            by_cases hall : rest.all isPySpace = true
            · rw [if_pos hall] at h
              simp only [Option.some.injEq] at h
              omega
            · rw [if_neg hall] at h
              simp at h
          · rw [if_neg hsp] at h
            simp at h

/-- The parser's result is at least its accumulator. -/
theorem parseBinAux_lower (s : List Char) : ∀ acc m,
    parseBinAux acc s = some m → acc ≤ m :=
  fun acc m h => parseBinAux_lower_aux s.length s (le_refl _) acc m h

/-- Parsing inverts `natToBin`: if a string of binary-digit characters
parses to `m` starting from a positive accumulator `acc`, then the binary
representation of `m` is that of `acc` followed by the string. -/
theorem parseBinAux_inv (s : List Char) (hs : ∀ c ∈ s, isBit c) : ∀ acc m,
    1 ≤ acc → parseBinAux acc s = some m → natToBin m = natToBin acc ++ s := by
  induction s with
  | nil =>
    intro acc m _ h
    simp [parseBinAux] at h
    simp [h]
  | cons c rest ih =>
    intro acc m hacc h
    have hc : isBit c := hs c (by simp)
    have hrest : ∀ c ∈ rest, isBit c := fun c hcm => hs c (by simp [hcm])
    have hb : pyDigitVal c = some (if c = '1' then 1 else 0) := pyDigitVal_isBit c hc
    set b : Nat := if c = '1' then 1 else 0 with hbdef
    have hb2 : b < 2 := by
      rcases hc with h0 | h1
      · simp [h0, hbdef]
      · simp [h1, hbdef]
    rw [parseBinAux.eq_def] at h
    simp only [] at h
    rw [hb] at h
    simp only [Option.elim_some] at h
    rw [if_pos hb2] at h
    have hstep : natToBin (acc * 2 + b) = natToBin acc ++ [c] := by
      rw [natToBin.eq_def]
      have hne : ¬ acc * 2 + b = 0 := by omega
      simp only [hne, dif_neg, not_false_iff]
      have hdiv : (acc * 2 + b) / 2 = acc := by omega
      have hmod : (acc * 2 + b) % 2 = b := by omega
      rw [hdiv, hmod]
      rcases hc with h0 | h1
      · simp [h0, hbdef]
      · simp [h1, hbdef]
    rw [ih hrest (acc * 2 + b) m (by omega) h, hstep, List.append_assoc]
    rfl

/-- Value of `countZeros` on a block of zeros followed by a non-zero character. -/
theorem countZeros_replicate (k : Nat) (c : Char) (hc : ¬ c = '0') (t : List Char) :
    countZeros (List.replicate k '0' ++ c :: t) = k := by
  induction k with
  | zero => simp [countZeros, hc]
  | succ k ih => simp [List.replicate_succ, countZeros, ih]

theorem countZeros_le_length (s : List Char) : countZeros s ≤ s.length := by
  induction s with
  | nil => simp [countZeros]
  | cons c rest ih =>
    by_cases hc : c = '0' <;> simp [countZeros, hc] <;> omega

/-- The first `countZeros s` characters of `s` are all `'0'`. -/
theorem take_countZeros (s : List Char) :
    s.take (countZeros s) = List.replicate (countZeros s) '0' := by
  induction s with
  | nil => simp [countZeros]
  | cons c rest ih =>
    by_cases hc : c = '0'
    · simp [countZeros, hc, List.replicate_succ, ih]
    · simp [countZeros, hc]

/-- The character right after the leading zeros, when it exists, is not
`'0'`: past the zero block, the stream is that character followed by the
rest. -/
theorem drop_countZeros (s : List Char) (h : countZeros s < s.length) :
    ∃ d, ¬ d = '0' ∧ s.drop (countZeros s) = d :: s.drop (countZeros s + 1) := by
  induction s with
  | nil => simp [countZeros] at h
  | cons c rest ih =>
    by_cases hc : c = '0'
    · have hcz : countZeros (c :: rest) = countZeros rest + 1 := by simp [countZeros, hc]
      rw [hcz]
      have hlt : countZeros rest < rest.length := by
        rw [hcz] at h; simpa using h
      obtain ⟨d, hd, hdrop⟩ := ih hlt
      exact ⟨d, hd, by simpa using hdrop⟩
    · have hcz : countZeros (c :: rest) = 0 := by simp [countZeros, hc]
      rw [hcz]
      exact ⟨c, hc, by simp⟩

theorem gamma_encode_number_ok (n : Int) (h : 1 ≤ n) :
    gamma_encode_number n = .ok (gammaCode n.toNat) := by
  rw [gamma_encode_number, if_neg (by omega)]
  rfl

theorem gamma_decode_nil : gamma_decode [] = .ok [] := by
  rw [gamma_decode.eq_def]
  simp

/-- Decoding one gamma code at the head of a stream: the decoder emits `n`
and continues on the tail. -/
theorem gamma_decode_chunk (n : Nat) (hn : 1 ≤ n) (s : List Char) :
    gamma_decode (List.replicate ((natToBin n).length - 1) '0'
        ++ '1' :: ((natToBin n).drop 1 ++ s))
      = (gamma_decode s).map fun xs => (n : Int) :: xs := by
  have hcons : natToBin n = '1' :: (natToBin n).drop 1 := by
    rw [natToBin_eq n hn]
    simp
  set offs := (natToBin n).drop 1 with hoffs_def
  have hlen : offs.length = (natToBin n).length - 1 := by
    simp [hoffs_def]
  set L := (natToBin n).length - 1 with hLdef
  set stream := List.replicate L '0' ++ '1' :: (offs ++ s) with hstream
  have hz : countZeros stream = L := countZeros_replicate L '1' (by decide) _
  have hslen : stream.length = L + 1 + (L + s.length) := by
    rw [hstream]
    simp only [List.length_append, List.length_replicate, List.length_cons]
    omega
  have hne : ¬ stream = [] := by simp [hstream]
  have hd1 : stream.drop (L + 1) = offs ++ s := by
    have hsh : stream = (List.replicate L '0' ++ ['1']) ++ (offs ++ s) := by
      simp [hstream]
    rw [hsh, List.drop_left' (by simp)]
  have hparse : parseBinAux 1 offs = some n := by
    have h0 := parseBinAux_natToBin n 0
    rw [hcons] at h0
    rw [parseBinAux.eq_def] at h0
    simp only [pyDigitVal_one, Option.elim_some] at h0
    simpa using h0
  rw [gamma_decode.eq_def, dif_neg hne, hz,
    dif_neg (by omega : ¬ stream.length ≤ L), hd1,
    dif_neg (by rw [List.length_append, hlen]; omega),
    List.take_left' hlen, List.drop_left' hlen, hparse]
  rfl

theorem natToBin_one : natToBin 1 = ['1'] := by
  simp [natToBin]

/-- Decoding exactly one gamma code yields the singleton sequence. -/
theorem gamma_decode_gammaCode (n : Nat) (hn : 1 ≤ n) :
    gamma_decode (gammaCode n) = .ok [(n : Int)] := by
  have h := gamma_decode_chunk n hn []
  rw [List.append_nil] at h
  rw [gammaCode, h, gamma_decode_nil]
  rfl

/-- Encoding a list of positive integers succeeds and decoding the result
recovers the list. -/
theorem gamma_roundtrip (L : List Int) (h : ∀ x ∈ L, 1 ≤ x) :
    ∃ bits, gamma_encode_list L = .ok bits ∧ gamma_decode bits = .ok L := by
  induction L with
  | nil => exact ⟨[], rfl, gamma_decode_nil⟩
  | cons n rest ih =>
    obtain ⟨bits, hb, hd⟩ := ih fun x hx => h x (by simp [hx])
    have hn : 1 ≤ n := h n (by simp)
    have hn1 : 1 ≤ n.toNat := by omega
    refine ⟨gammaCode n.toNat ++ bits, ?_, ?_⟩
    · rw [gamma_encode_list, gamma_encode_number_ok n hn, hb]
      rfl
    · have hshape : gammaCode n.toNat ++ bits
          = List.replicate ((natToBin n.toNat).length - 1) '0'
              ++ '1' :: ((natToBin n.toNat).drop 1 ++ bits) := by
        simp [gammaCode]
      rw [hshape, gamma_decode_chunk n.toNat hn1 bits, hd]
      have : ((n.toNat : Int)) = n := by omega
      rw [this]
      rfl

/-- Inversion of a successful decode: every emitted integer is positive,
and — when the stream consists of binary-digit characters — re-encoding
the output reproduces the stream exactly. -/
theorem gamma_decode_inv : ∀ (N : Nat) (s : List Char), s.length ≤ N → ∀ xs,
    gamma_decode s = .ok xs →
    (∀ x ∈ xs, 1 ≤ x) ∧ ((∀ c ∈ s, isBit c) → gamma_encode_list xs = .ok s) := by
  intro N
  induction N with
  | zero =>
    intro s hlen xs h
    have hs : s = [] := by
      cases s with
      | nil => rfl
      | cons c t => simp at hlen
    subst hs
    rw [gamma_decode_nil] at h
    simp only [Except.ok.injEq] at h
    subst h
    exact ⟨by simp, fun _ => rfl⟩
  | succ N ih =>
    intro s hlen xs h
    by_cases hs : s = []
    · subst hs
      rw [gamma_decode_nil] at h
      simp only [Except.ok.injEq] at h
      subst h
      exact ⟨by simp, fun _ => rfl⟩
    · rw [gamma_decode.eq_def, dif_neg hs] at h
      by_cases h1 : s.length ≤ countZeros s
      · rw [dif_pos h1] at h
        simp at h
      · rw [dif_neg h1] at h
        by_cases h2 : (s.drop (countZeros s + 1)).length < countZeros s
        · rw [dif_pos h2] at h
          simp at h
        · rw [dif_neg h2] at h
          cases hp : parseBinAux 1 ((s.drop (countZeros s + 1)).take (countZeros s)) with
          | none =>
            rw [hp] at h
            simp at h
          | some x =>
            rw [hp] at h
            simp only [Option.elim_some] at h
            cases hd : gamma_decode ((s.drop (countZeros s + 1)).drop (countZeros s)) with
            | error e =>
              rw [hd] at h
              simp [Except.map] at h
            | ok xs' =>
              rw [hd] at h
              simp only [Except.map, Except.ok.injEq] at h
              subst h
              have hzlt : countZeros s < s.length := by omega
              have hx1 : 1 ≤ x := parseBinAux_lower _ 1 x hp
              have hafterlen : (s.drop (countZeros s + 1)).length
                  = s.length - (countZeros s + 1) := by
                simp
              have hrestlen :
                  ((s.drop (countZeros s + 1)).drop (countZeros s)).length ≤ N := by
                simp only [List.length_drop] at hafterlen ⊢
                omega
              obtain ⟨hpos', hrec⟩ := ih _ hrestlen xs' hd
              constructor
              · intro y hy
                rcases List.mem_cons.mp hy with rfl | hy'
                · exact_mod_cast hx1
                · exact hpos' y hy'
              · intro hbits
                obtain ⟨d, hd0, hdrop⟩ := drop_countZeros s hzlt
                have hdmem : d ∈ s := by
                  have : d ∈ s.drop (countZeros s) := by rw [hdrop]; simp
                  exact List.mem_of_mem_drop this
                have hd1 : d = '1' := by
                  rcases hbits d hdmem with h0 | h1
                  · exact absurd h0 hd0
                  · exact h1
                have hoffsbits : ∀ c ∈ (s.drop (countZeros s + 1)).take (countZeros s),
                    isBit c := by
                  intro c hc
                  exact hbits c (List.mem_of_mem_drop (List.mem_of_mem_take hc))
                have hoffslen : ((s.drop (countZeros s + 1)).take (countZeros s)).length
                    = countZeros s := by
                  simp only [List.length_take, List.length_drop]
                  simp only [List.length_drop] at h2
                  omega
                have hinv := parseBinAux_inv _ hoffsbits 1 x (le_refl 1) hp
                rw [natToBin_one] at hinv
                have hrestbits : ∀ c ∈ (s.drop (countZeros s + 1)).drop (countZeros s),
                    isBit c := by
                  intro c hc
                  exact hbits c (List.mem_of_mem_drop (List.mem_of_mem_drop hc))
                have hrec' := hrec hrestbits
                rw [gamma_encode_list, gamma_encode_number_ok (x : Int) (by exact_mod_cast hx1),
                  hrec']
                have hcodex : gammaCode ((x : Int)).toNat
                    = List.replicate (countZeros s) '0'
                        ++ '1' :: (s.drop (countZeros s + 1)).take (countZeros s) := by
                  rw [Int.toNat_natCast, gammaCode, hinv]
                  simp [hoffslen]
                rw [hcodex]
                have hsplit : s = List.replicate (countZeros s) '0'
                    ++ '1' :: ((s.drop (countZeros s + 1)).take (countZeros s)
                        ++ (s.drop (countZeros s + 1)).drop (countZeros s)) := by
                  conv_lhs => rw [← List.take_append_drop (countZeros s) s]
                  rw [take_countZeros, hdrop, hd1, List.take_append_drop]
                simp only [Except.bind, Except.map, List.append_assoc, List.cons_append]
                rw [← hsplit]

/-- C1: Round-trip — for every list `L` of positive integers,
`gamma_decode (gamma_encode_list L) = L`, and for every positive integer
`x`, `gamma_decode (gamma_encode_number x) = [x]` (the encode/decode
composition is written with `Except.bind`). -/
theorem claim_C1 :
    (∀ L : List Int, (∀ x ∈ L, 1 ≤ x) →
        (gamma_encode_list L).bind gamma_decode = .ok L)
    ∧ ∀ x : Int, 1 ≤ x → (gamma_encode_number x).bind gamma_decode = .ok [x] := by
  constructor
  · intro L h
    obtain ⟨bits, hb, hd⟩ := gamma_roundtrip L h
    rw [hb]
    simpa [Except.bind] using hd
  · intro x hx
    rw [gamma_encode_number_ok x hx]
    have hdec := gamma_decode_gammaCode x.toNat (by omega)
    have hxx : ((x.toNat : Nat) : Int) = x := by omega
    simp only [Except.bind]
    rw [hdec, hxx]

/-- C1 witness: both parts at concrete inputs. -/
theorem claim_C1_witness :
    (gamma_encode_list [1, 3, 5, 10]).bind gamma_decode = .ok [1, 3, 5, 10]
    ∧ (gamma_encode_number 5).bind gamma_decode = .ok [5] :=
  ⟨claim_C1.1 [1, 3, 5, 10] (by decide), claim_C1.2 5 (by decide)⟩

/-- C2: for every `x ≥ 1`, `gamma_encode_number x` is exactly the gamma
code the spec describes: `N − 1` zero bits, one `'1'` bit, then the
low-order `N − 1` bits of `x`, where `N = floor(log2 x) + 1`
(`gammaCodeSpec`, written from the spec's words). -/
theorem claim_C2 (x : Int) (h : 1 ≤ x) :
    gamma_encode_number x = .ok (gammaCodeSpec x.toNat) := by
  rw [gamma_encode_number_ok x h, gammaCode, natToBin_eq x.toNat (by omega), gammaCodeSpec]
  simp [lowBits_length]

/-- C2 witness: the spec-described code at `x = 10`. -/
theorem claim_C2_witness :
    gamma_encode_number 10 = .ok (gammaCodeSpec (10 : Int).toNat) :=
  claim_C2 10 (by decide)

/-- C3: `gamma_encode_number x` fails with `InvalidInput` exactly when
`x ≤ 0`; `gamma_encode_list` fails with `InvalidInput` when some element
is non-positive (the whole call errors, so there is no partial output),
and succeeds on lists of positive integers. -/
theorem claim_C3 :
    (∀ x : Int, gamma_encode_number x = .error .invalidInput ↔ x ≤ 0)
    ∧ ∀ L : List Int,
        ((∃ x ∈ L, x ≤ 0) → gamma_encode_list L = .error .invalidInput)
        ∧ ((∀ x ∈ L, 1 ≤ x) → ∃ bits, gamma_encode_list L = .ok bits) := by
  have henc : ∀ x : Int, gamma_encode_number x = .error .invalidInput ↔ x ≤ 0 := by
    intro x
    constructor
    · intro h
      by_contra hx
      rw [gamma_encode_number, if_neg hx] at h
      simp at h
    · intro h
      rw [gamma_encode_number, if_pos h]
  refine ⟨henc, fun L => ⟨?_, ?_⟩⟩
  · induction L with
    | nil =>
      intro ⟨x, hxL, _⟩
      simp at hxL
    | cons n rest ih =>
      intro ⟨x, hxL, hx⟩
      rw [gamma_encode_list]
      by_cases hn : n ≤ 0
      · rw [(henc n).mpr hn]
        rfl
      · rcases List.mem_cons.mp hxL with rfl | hxrest
        · exact absurd hx hn
        · rw [gamma_encode_number_ok n (by omega), ih ⟨x, hxrest, hx⟩]
          rfl
  · intro h
    obtain ⟨bits, hb, -⟩ := gamma_roundtrip L h
    exact ⟨bits, hb⟩

/-- C3 witness: the named failing inputs `0`, `-5`, a list with a
non-positive element, and a successful all-positive list. -/
theorem claim_C3_witness :
    gamma_encode_number 0 = .error .invalidInput
    ∧ gamma_encode_number (-5) = .error .invalidInput
    ∧ gamma_encode_list [1, -5, 2] = .error .invalidInput
    ∧ gamma_encode_list [2] ≠ .error .invalidInput := by
  refine ⟨(claim_C3.1 0).mpr (by decide), (claim_C3.1 (-5)).mpr (by decide),
    (claim_C3.2 [1, -5, 2]).1 ⟨-5, by decide, by decide⟩, ?_⟩
  obtain ⟨bits, hb⟩ := (claim_C3.2 [2]).2 (by decide)
  rw [hb]
  simp

/-- C4: decoder error vectors — `gamma_decode "000"` fails with
`MalformedStream: prefix cutoff` (`unaryCutoff`), `gamma_decode "0010"`
fails with `MalformedStream: offset cutoff` (`offsetCutoff`), and
`gamma_decode ""` returns the empty sequence. -/
theorem claim_C4 :
    gamma_decode ['0', '0', '0'] = .error .unaryCutoff
    ∧ gamma_decode ['0', '0', '1', '0'] = .error .offsetCutoff
    ∧ gamma_decode [] = .ok [] := by
  refine ⟨?_, ?_, gamma_decode_nil⟩
  · simp [gamma_decode, countZeros]
  · simp [gamma_decode, countZeros]

/-- C5: prefix-freeness — for positive `x ≠ y`, the code of `x` is not a
prefix of the code of `y` (`∀ t, by_ ≠ bx ++ t` says no extension of the
code of `x` equals the code of `y`). -/
theorem claim_C5 (x y : Int) (hx : 1 ≤ x) (hy : 1 ≤ y) (hxy : x ≠ y)
    (bx by_ : List Char) (hbx : gamma_encode_number x = .ok bx)
    (hby : gamma_encode_number y = .ok by_) :
    ∀ t, by_ ≠ bx ++ t := by
  intro t ht
  rw [gamma_encode_number_ok x hx] at hbx
  rw [gamma_encode_number_ok y hy] at hby
  simp only [Except.ok.injEq] at hbx hby
  subst hbx
  subst hby
  have hdy := gamma_decode_gammaCode y.toNat (by omega)
  rw [ht] at hdy
  have hshape : gammaCode x.toNat ++ t
      = List.replicate ((natToBin x.toNat).length - 1) '0'
          ++ '1' :: ((natToBin x.toNat).drop 1 ++ t) := by
    simp [gammaCode]
  rw [hshape, gamma_decode_chunk x.toNat (by omega) t] at hdy
  cases hdt : gamma_decode t with
  | error e =>
    rw [hdt] at hdy
    simp [Except.map] at hdy
  | ok xs =>
    rw [hdt] at hdy
    simp only [Except.map, Except.ok.injEq, List.cons.injEq] at hdy
    obtain ⟨h1, -⟩ := hdy
    apply hxy
    omega

/-- C5 witness: the code of 2 extended by two bits is not the code of 5. -/
theorem claim_C5_witness :
    ['0', '0', '1', '0', '1'] ≠ ['0', '1', '0'] ++ ['0', '1'] :=
  claim_C5 2 5 (by decide) (by decide) (by decide) ['0', '1', '0'] ['0', '0', '1', '0', '1']
    (by simp [gamma_encode_number, natToBin]) (by simp [gamma_encode_number, natToBin])
    ['0', '1']

/-- C6: known vectors — `gamma_encode_number 5 = "00101"`,
`gamma_encode_number 10 = "0001010"`, `gamma_encode_number 1 = "1"`,
`gamma_encode_number 3 = "011"`, `gamma_encode_list [1,3,5,10]` is the
concatenation of the four codes, and decoding it gives `[1,3,5,10]`. -/
theorem claim_C6 :
    gamma_encode_number 5 = .ok ['0', '0', '1', '0', '1']
    ∧ gamma_encode_number 10 = .ok ['0', '0', '0', '1', '0', '1', '0']
    ∧ gamma_encode_number 1 = .ok ['1']
    ∧ gamma_encode_number 3 = .ok ['0', '1', '1']
    ∧ gamma_encode_list [1, 3, 5, 10]
        = .ok (['1'] ++ ['0', '1', '1'] ++ ['0', '0', '1', '0', '1']
            ++ ['0', '0', '0', '1', '0', '1', '0'])
    ∧ gamma_decode (['1'] ++ ['0', '1', '1'] ++ ['0', '0', '1', '0', '1']
            ++ ['0', '0', '0', '1', '0', '1', '0'])
        = .ok [1, 3, 5, 10] := by
  refine ⟨?_, ?_, ?_, ?_, ?_, ?_⟩ <;>
    simp [gamma_encode_number, gamma_encode_list, gamma_decode, natToBin, countZeros,
      parseBinAux, pyDigitVal_zero, pyDigitVal_one, Except.map, Except.bind]

/-- C7: the code of `x` has length `2 * floor(log2 x) + 1`. -/
theorem claim_C7 (x : Int) (h : 1 ≤ x) (bits : List Char)
    (hb : gamma_encode_number x = .ok bits) :
    bits.length = 2 * Nat.log2 x.toNat + 1 := by
  rw [gamma_encode_number_ok x h] at hb
  simp only [Except.ok.injEq] at hb
  subst hb
  simp only [gammaCode, List.length_append, List.length_replicate, List.length_cons,
    List.length_drop, natToBin_length x.toNat (by omega)]
  omega

/-- C7 witness: the code of 1024 has 21 = 2·10 + 1 bits. -/
theorem claim_C7_witness :
    (['0', '0', '0', '0', '0', '0', '0', '0', '0', '0', '1',
      '0', '0', '0', '0', '0', '0', '0', '0', '0', '0'] : List Char).length
      = 2 * Nat.log2 (1024 : Int).toNat + 1 :=
  claim_C7 1024 (by decide) _ (by simp [gamma_encode_number, natToBin])

/-- C8: reverse round-trip — on a stream of `'0'`/`'1'` characters, a
successful decode is inverted exactly by the encoder:
`gamma_encode_list (gamma_decode s) = s`. -/
theorem claim_C8 (s : List Char) (hbits : ∀ c ∈ s, c = '0' ∨ c = '1')
    (xs : List Int) (h : gamma_decode s = .ok xs) :
    gamma_encode_list xs = .ok s :=
  (gamma_decode_inv s.length s (le_refl _) xs h).2 hbits

/-- C8 witness: `"00101"` decodes to `[5]` and re-encodes to itself. -/
theorem claim_C8_witness :
    gamma_encode_list [5] = .ok ['0', '0', '1', '0', '1'] :=
  claim_C8 ['0', '0', '1', '0', '1'] (by decide) [5]
    (by simp [gamma_decode, countZeros, parseBinAux, pyDigitVal_zero, pyDigitVal_one,
      Except.map])

/-- C9: every integer a successful decode emits is at least 1 — decoder
outputs always lie in the encoder's accepted domain. -/
theorem claim_C9 (s : List Char) (xs : List Int) (h : gamma_decode s = .ok xs) :
    ∀ x ∈ xs, 1 ≤ x :=
  (gamma_decode_inv s.length s (le_refl _) xs h).1

/-- C9 witness: decoding `"001_0"` — whose offset `"_0"` Python's `int`
accepts through a PEP 515 underscore — succeeds with `[2]`, and the
emitted element is ≥ 1. -/
theorem claim_C9_witness : (1 : Int) ≤ 2 :=
  claim_C9 ['0', '0', '1', '_', '0'] [2]
    (by simp [gamma_decode, countZeros, parseBinAux, pyDigitVal_underscore,
      pyDigitVal_zero, pyDigitVal_one, Except.map]) 2 (by decide)

/-- C10: the decoder never validates characters — any single character
other than `'0'` is taken as the prefix-terminating `'1'` bit, so the
one-character stream decodes successfully to `[1]` instead of raising. -/
theorem claim_C10 (c : Char) (h : ¬ c = '0') : gamma_decode [c] = .ok [1] := by
  have hz : countZeros [c] = 0 := by simp [countZeros, h]
  rw [gamma_decode.eq_def]
  simp [hz, parseBinAux, gamma_decode_nil, Except.map]

/-- C10 witness: the non-bit stream `"2"` decodes to `[1]`. -/
theorem claim_C10_witness : gamma_decode ['2'] = .ok [1] :=
  claim_C10 '2' (by decide)
